import Mathlib

/-!
Verification of the pathfix core: the gitignore-style pattern matcher
(`matchGitIgnorePattern`, `ShouldIgnore` in pkg/processor/gitignore.go) and the
header-rewrite logic of `processFile` (pkg/processor/processor.go), shallowly
embedded over `List Char` (Go operates on bytes/strings; all inputs of interest
are ASCII, so a character list is a faithful carrier).
-/

namespace Pathfix

/-- Strings are modelled as lists of characters. -/
abbrev Str := List Char

/-- Go `strings.Contains s sub` / `bytes.Contains`: `sub` occurs contiguously in `s`
(generalized over the element type so it also serves for sequences of lines). -/
def containsSeq {α : Type} [DecidableEq α] : List α → List α → Bool
  | [], sub => sub.isPrefixOf ([] : List α)
  | s@(_ :: t), sub => sub.isPrefixOf s || containsSeq t sub

/-- Go `strings.Contains` on strings. -/
def containsSub (s sub : Str) : Bool := containsSeq s sub

/-- Go `strings.Split s (String.singleton c)`: split on every occurrence of the
single-character separator; never returns an empty list. -/
def splitOnChar (c : Char) : Str → List Str
  | [] => [[]]
  | a :: t =>
    match splitOnChar c t with
    | [] => [[]]
    | h :: r => if a = c then [] :: h :: r else (a :: h) :: r

/-- Go `bytes.Replace s old new 1`: replace the first occurrence of `old` in `s`
by `new` (with `old = []` inserting `new` at the front), `s` unchanged if `old`
does not occur. -/
def replaceFirst : Str → Str → Str → Str
  | [], old, new => if old.isPrefixOf ([] : Str) then new else []
  | a :: t, old, new =>
    if old.isPrefixOf (a :: t) then new ++ (a :: t).drop old.length
    else a :: replaceFirst t old new

/-- The first line of a scanner token: characters up to the first newline. -/
def takeLine (s : Str) : Str := s.takeWhile (fun c => c ≠ '\n')

/-- What follows the first newline of `s` (empty when `s` has no newline). -/
def afterFirstLine (s : Str) : Str := (s.dropWhile (fun c => c ≠ '\n')).tail

/-- `bufio.ScanLines`' `dropCR`: strip one trailing carriage return. -/
def dropCR (s : Str) : Str := if s.getLast? = some '\r' then s.dropLast else s

/-- `path/filepath.Base` restricted to slash-separated paths: strip trailing
slashes, then keep everything after the last slash, with the Go special cases
for the empty and the all-slash path. -/
def baseName (path : Str) : Str :=
  if path = [] then ['.']
  else
    let p := (path.reverse.dropWhile (fun c => c = '/')).reverse
    if p = [] then ['/']
    else (p.reverse.takeWhile (fun c => c ≠ '/')).reverse

/-- The trailing "Exact match" section of `matchGitIgnorePattern`
(gitignore.go lines 351-365), reached when no earlier branch returned. -/
def plainMatch (path pat : Str) : Bool :=
  if containsSub pat ['/'] then
    path = pat || (pat ++ ['/']).isPrefixOf path
  else
    (splitOnChar '/' path).any (fun part => part = pat)

/-- `matchGitIgnorePattern` (gitignore.go lines 293-366), branch for branch:
leading-slash root patterns, trailing-slash directory patterns, leading-`!`
patterns, single-`*` wildcard patterns (other shapes fall through to the
plain-pattern section), then the plain-pattern section. -/
def matchGitIgnorePattern (path pat : Str) : Bool :=
  if (['/'] : Str).isPrefixOf pat then
    let p := pat.drop 1
    path = p || (p ++ ['/']).isPrefixOf path
  else if (['/'] : Str).isSuffixOf pat then
    let dirPat := pat.dropLast
    path = dirPat || pat.isPrefixOf path ||
      (['/'] ++ dirPat).isSuffixOf path ||
      containsSub path (['/'] ++ dirPat ++ ['/'])
  else if (['!'] : Str).isPrefixOf pat then
    false
  else if containsSub pat ['*'] then
    match splitOnChar '*' pat with
    | [pre, suf] =>
      if pre = [] ∧ suf ≠ [] then suf.isSuffixOf path
      else if pre ≠ [] ∧ suf = [] then pre.isPrefixOf path
      else if pre ≠ [] ∧ suf ≠ [] then
        if containsSub pre ['/'] then pre.isPrefixOf path && suf.isSuffixOf path
        else
          let filename := baseName path
          pre.isPrefixOf filename && suf.isSuffixOf filename
      else plainMatch path pat
    | _ => plainMatch path pat
  else plainMatch path pat

/-- `GitIgnore.ShouldIgnore` (gitignore.go lines 243-290) after the path has been
relativized and slash-normalized: pass 1 looks for a matching non-negated
pattern; if none matches the result is `false`; otherwise pass 2 re-includes the
path iff some negated pattern (leading `!` stripped) matches. -/
def shouldIgnore (patterns : List Str) (relPath : Str) : Bool :=
  if patterns.any (fun pat =>
      !((['!'] : Str).isPrefixOf pat) && matchGitIgnorePattern relPath pat) then
    !(patterns.any (fun pat =>
      (['!'] : Str).isPrefixOf pat && matchGitIgnorePattern relPath (pat.drop 1)))
  else false

/-- `models.CommentStyle`: comment delimiters and the preferred form
(`"line"` or `"block"`, a string in the Go source). -/
structure CommentStyle where
  lineComment : Str
  blockCommentStart : Str
  blockCommentEnd : Str
  preferred : Str
deriving DecidableEq

/-- The comment-text construction of `processFile` (processor.go lines 228-238):
line form when preferred and the line token is non-empty, else block form when
both delimiters are non-empty, else no usable style (`none` = the
"no valid comment style" error). -/
def commentTextFor (style : CommentStyle) (pfx relPath : Str) : Option Str :=
  if style.preferred = "line".data ∧ style.lineComment ≠ [] then
    some (style.lineComment ++ [' '] ++ pfx ++ relPath ++ ['\n'])
  else if style.blockCommentStart ≠ [] ∧ style.blockCommentEnd ≠ [] then
    some (style.blockCommentStart ++ [' '] ++ pfx ++ relPath ++ [' '] ++
      style.blockCommentEnd ++ ['\n'])
  else none

/-- The existing-header detection of `processFile` (processor.go lines 246-247):
the first line contains the line-comment token and the prefix, or the
block-comment start token and the prefix (plain substring tests). -/
def hasHeaderMark (fl : Str) (style : CommentStyle) (pfx : Str) : Bool :=
  (containsSub fl style.lineComment && containsSub fl pfx) ||
  (containsSub fl style.blockCommentStart && containsSub fl pfx)

/-- The pure content-rewrite core of `processFile` (processor.go lines 224-261):
`none` when no comment form is usable; otherwise the new content and the
`updated` flag. The scanner's first token is the text up to the first newline
with a trailing carriage return stripped; an empty content yields just the
header line; a detected header replaces the first occurrence of
`firstLine ++ "\n"`; otherwise the header line is prepended. -/
def rewrite (content relPath : Str) (style : CommentStyle) (pfx : Str) :
    Option (Str × Bool) :=
  match commentTextFor style pfx relPath with
  | none => none
  | some ct =>
    if content = [] then some (ct, true)
    else if hasHeaderMark (dropCR (takeLine content)) style pfx then
      some (replaceFirst content (dropCR (takeLine content) ++ ['\n']) ct, true)
    else
      some (ct ++ content, true)

/-- The new content of a rewrite result (`[]` for the error case). -/
def newContentD (r : Option (Str × Bool)) : Str := (r.map Prod.fst).getD []

/-- The built-in `.go` style (processor.go line 82). -/
def goStyle : CommentStyle :=
  { lineComment := "//".data, blockCommentStart := "/*".data,
    blockCommentEnd := "*/".data, preferred := "line".data }

/-- The built-in `.html` style (processor.go line 100). -/
def htmlStyle : CommentStyle :=
  { lineComment := [], blockCommentStart := "<!--".data,
    blockCommentEnd := "-->".data, preferred := "block".data }

/-- The built-in `.xml` style (processor.go line 101). -/
def xmlStyle : CommentStyle :=
  { lineComment := [], blockCommentStart := "<!--".data,
    blockCommentEnd := "-->".data, preferred := "block".data }

/-- The built-in `.css` style (processor.go line 102). -/
def cssStyle : CommentStyle :=
  { lineComment := [], blockCommentStart := "/*".data,
    blockCommentEnd := "*/".data, preferred := "block".data }

/-- The default comment prefix (`"File: "`). -/
def stdPfx : Str := "File: ".data

/-- A string with neither newline nor carriage return characters. -/
abbrev cleanStr (s : Str) : Prop := '\n' ∉ s ∧ '\r' ∉ s

/-! ### General lemmas about the string operations -/

theorem containsSeq_of_isPrefixOf {α : Type} [DecidableEq α] {s sub : List α}
    (h : sub.isPrefixOf s = true) : containsSeq s sub = true := by
  cases s with
  | nil => simpa [containsSeq] using h
  | cons a t => simp [containsSeq, h]

theorem containsSeq_nil {α : Type} [DecidableEq α] (s : List α) :
    containsSeq s ([] : List α) = true :=
  containsSeq_of_isPrefixOf (by simp [List.isPrefixOf])

theorem containsSeq_of_append {α : Type} [DecidableEq α] (a sub b : List α) :
    containsSeq (a ++ sub ++ b) sub = true := by
  induction a with
  | nil =>
    exact containsSeq_of_isPrefixOf
      (List.isPrefixOf_iff_prefix.mpr (List.prefix_append sub b))
  | cons x t ih =>
    show (sub.isPrefixOf (x :: (t ++ sub ++ b)) || containsSeq (t ++ sub ++ b) sub) = true
    rw [ih, Bool.or_true]

theorem length_le_of_containsSeq {α : Type} [DecidableEq α] {s sub : List α}
    (h : containsSeq s sub = true) : sub.length ≤ s.length := by
  induction s with
  | nil =>
    have : sub <+: [] := List.isPrefixOf_iff_prefix.mp (by simpa [containsSeq] using h)
    simpa using this.length_le
  | cons a t ih =>
    have h' : sub <+: a :: t ∨ containsSeq t sub = true := by
      simpa [containsSeq] using h
    rcases h' with h1 | h2
    · exact h1.length_le
    · exact le_trans (ih h2) (by simp)

theorem mem_of_containsSeq_singleton {α : Type} [DecidableEq α] {s : List α} {c : α}
    (h : c ∈ s) : containsSeq s [c] = true := by
  obtain ⟨u, v, rfl⟩ := List.append_of_mem h
  have : u ++ c :: v = u ++ [c] ++ v := by simp
  rw [this]
  exact containsSeq_of_append u [c] v

theorem replaceFirst_of_isPrefixOf {s old : Str} (new : Str)
    (h : old.isPrefixOf s = true) :
    replaceFirst s old new = new ++ s.drop old.length := by
  cases s with
  | nil =>
    have : old <+: [] := List.isPrefixOf_iff_prefix.mp h
    have hold : old = [] := List.prefix_nil.mp this
    simp [replaceFirst, hold, List.isPrefixOf]
  | cons a t => simp [replaceFirst, h]

theorem replaceFirst_append_left (old new r : Str) :
    replaceFirst (old ++ r) old new = new ++ r := by
  rw [replaceFirst_of_isPrefixOf new
    (List.isPrefixOf_iff_prefix.mpr (List.prefix_append old r))]
  rw [List.drop_left]

theorem replaceFirst_of_not_contains {s old : Str} (new : Str)
    (h : containsSeq s old = false) : replaceFirst s old new = s := by
  induction s with
  | nil =>
    have : old.isPrefixOf ([] : Str) = false := by simpa [containsSeq] using h
    simp [replaceFirst, this]
  | cons a t ih =>
    have h' : old.isPrefixOf (a :: t) = false ∧ containsSeq t old = false := by
      have := h
      simp only [containsSeq, Bool.or_eq_false_iff] at this
      exact this
    simp [replaceFirst, h'.1, ih h'.2]

theorem takeLine_append_left {b : Str} (hb : '\n' ∉ b) (r : Str) :
    takeLine (b ++ '\n' :: r) = b := by
  induction b with
  | nil => simp [takeLine]
  | cons a t ih =>
    have ha : a ≠ '\n' := fun h => hb (h ▸ List.mem_cons_self a t)
    have ht : '\n' ∉ t := fun h => hb (List.mem_cons_of_mem a h)
    simpa [takeLine, List.takeWhile_cons, ha] using ih ht

theorem afterFirstLine_append_left {b : Str} (hb : '\n' ∉ b) (r : Str) :
    afterFirstLine (b ++ '\n' :: r) = r := by
  induction b with
  | nil => simp [afterFirstLine]
  | cons a t ih =>
    have ha : a ≠ '\n' := fun h => hb (h ▸ List.mem_cons_self a t)
    have ht : '\n' ∉ t := fun h => hb (List.mem_cons_of_mem a h)
    simpa [afterFirstLine, List.dropWhile_cons, ha] using ih ht

theorem takeLine_eq_self {s : Str} (h : '\n' ∉ s) : takeLine s = s := by
  induction s with
  | nil => simp [takeLine]
  | cons a t ih =>
    have ha : a ≠ '\n' := fun hh => h (hh ▸ List.mem_cons_self a t)
    have ht : '\n' ∉ t := fun hh => h (List.mem_cons_of_mem a hh)
    simp [takeLine, List.takeWhile_cons, ha]
    exact fun x hx hh => ht (hh ▸ hx)

theorem takeLine_split {s : Str} (h : '\n' ∈ s) :
    s = takeLine s ++ '\n' :: afterFirstLine s := by
  induction s with
  | nil => cases h
  | cons a t ih =>
    by_cases ha : a = '\n'
    · subst ha
      simp [takeLine, afterFirstLine, List.takeWhile_cons, List.dropWhile_cons]
    · have h' : '\n' ∈ t := by
        rcases List.mem_cons.mp h with h1 | h1
        · exact absurd h1.symm ha
        · exact h1
      have := ih h'
      simp only [takeLine, afterFirstLine, List.takeWhile_cons, List.dropWhile_cons, ha,
        decide_not] at this ⊢
      simpa [ha] using this

theorem afterFirstLine_of_not_mem {s : Str} (h : '\n' ∉ s) : afterFirstLine s = [] := by
  induction s with
  | nil => simp [afterFirstLine]
  | cons a t ih =>
    have ha : a ≠ '\n' := fun hh => h (hh ▸ List.mem_cons_self a t)
    have ht : '\n' ∉ t := fun hh => h (List.mem_cons_of_mem a hh)
    simp [afterFirstLine, List.dropWhile_cons, ha]
    simpa [afterFirstLine] using ih ht

theorem dropCR_of_getLast? {s : Str} (h : s.getLast? ≠ some '\r') : dropCR s = s := by
  simp [dropCR, h]

theorem dropCR_of_not_mem {s : Str} (h : '\r' ∉ s) : dropCR s = s := by
  refine dropCR_of_getLast? fun hl => ?_
  obtain ⟨hne, he⟩ := List.mem_getLast?_eq_getLast (by simpa using hl)
  exact h (he ▸ List.getLast_mem hne)

theorem not_mem_takeLine_of_not_mem {s : Str} {c : Char} (h : c ∉ s) :
    c ∉ takeLine s := fun hm => h ((List.takeWhile_prefix _).subset hm)

/-! ### Lemmas about splitting and the plain-pattern section -/

theorem splitOnChar_ne_nil (c : Char) (s : Str) : splitOnChar c s ≠ [] := by
  cases s with
  | nil => simp [splitOnChar]
  | cons a t =>
    unfold splitOnChar
    cases h : splitOnChar c t with
    | nil => simp
    | cons x r => by_cases hac : a = c <;> simp [hac]

theorem splitOnChar_cons_eq (c a : Char) (t : Str) {x : Str} {r : List Str}
    (h : splitOnChar c t = x :: r) :
    splitOnChar c (a :: t) = if a = c then [] :: x :: r else (a :: x) :: r := by
  unfold splitOnChar
  rw [h]

theorem splitOnChar_length (c : Char) (s : Str) :
    (splitOnChar c s).length = s.count c + 1 := by
  induction s with
  | nil => simp [splitOnChar]
  | cons a t ih =>
    cases h : splitOnChar c t with
    | nil => exact absurd h (splitOnChar_ne_nil c t)
    | cons x r =>
      rw [h] at ih
      rw [splitOnChar_cons_eq c a t h]
      by_cases hac : a = c
      · subst hac
        rw [if_pos rfl]
        simp only [List.length_cons, List.count_cons_self] at ih ⊢
        omega
      · have hca : c ≠ a := Ne.symm hac
        rw [if_neg hac]
        simp only [List.length_cons, List.count_cons_of_ne hca] at ih ⊢
        omega

theorem mem_splitOnChar_subset {c : Char} {s : Str} :
    ∀ {part : Str}, part ∈ splitOnChar c s → ∀ {x : Char}, x ∈ part → x ∈ s := by
  induction s with
  | nil =>
    intro part hp x hx
    simp [splitOnChar] at hp
    subst hp
    exact absurd hx (List.not_mem_nil x)
  | cons a t ih =>
    intro part hp x hx
    cases h : splitOnChar c t with
    | nil => exact absurd h (splitOnChar_ne_nil c t)
    | cons b r =>
      rw [splitOnChar_cons_eq c a t h] at hp
      by_cases hac : a = c
      · rw [if_pos hac] at hp
        rcases List.mem_cons.mp hp with h1 | h1
        · subst h1
          exact absurd hx (List.not_mem_nil x)
        · exact List.mem_cons_of_mem a (ih (h ▸ h1) hx)
      · rw [if_neg hac] at hp
        rcases List.mem_cons.mp hp with h1 | h1
        · subst h1
          rcases List.mem_cons.mp hx with h2 | h2
          · exact h2 ▸ List.mem_cons_self a t
          · exact List.mem_cons_of_mem a
              (ih (by rw [h]; exact List.mem_cons_self b r) h2)
        · exact List.mem_cons_of_mem a
            (ih (by rw [h]; exact List.mem_cons_of_mem b h1) hx)

theorem plainMatch_star_free {path pat : Str} (hstar : '*' ∈ pat) (hp : '*' ∉ path) :
    plainMatch path pat = false := by
  unfold plainMatch
  by_cases hsl : containsSub pat ['/'] = true
  · rw [if_pos hsl]
    have hne : path ≠ pat := fun he => hp (he ▸ hstar)
    have h2 : (pat ++ ['/']).isPrefixOf path = false := by
      cases hcc : (pat ++ ['/']).isPrefixOf path with
      | false => rfl
      | true =>
        have hpre : pat ++ ['/'] <+: path := List.isPrefixOf_iff_prefix.mp hcc
        exact absurd (hpre.subset (List.mem_append.mpr (Or.inl hstar))) hp
    simp [hne, h2]
  · rw [if_neg hsl]
    rw [Bool.eq_false_iff]
    intro hX
    rw [List.any_eq_true] at hX
    obtain ⟨part, hmem, hpp⟩ := hX
    simp only [decide_eq_true_eq] at hpp
    subst hpp
    exact hp (mem_splitOnChar_subset hmem hstar)

theorem exists_cons3_of_three_le {α : Type} {l : List α} (h : 3 ≤ l.length) :
    ∃ a b c r, l = a :: b :: c :: r := by
  rcases l with _ | ⟨a, t⟩
  · simp at h
  rcases t with _ | ⟨b, t2⟩
  · simp at h
  rcases t2 with _ | ⟨c, r⟩
  · simp at h
  exact ⟨a, b, c, r, rfl⟩

/-! ### Lemmas about the rewrite core -/

theorem rewrite_eq_of_some {content relPath pfx ct : Str} {style : CommentStyle}
    (hct : commentTextFor style pfx relPath = some ct) :
    rewrite content relPath style pfx =
      if content = [] then some (ct, true)
      else if hasHeaderMark (dropCR (takeLine content)) style pfx then
        some (replaceFirst content (dropCR (takeLine content) ++ ['\n']) ct, true)
      else some (ct ++ content, true) := by
  unfold rewrite
  rw [hct]

theorem rewrite_eq_none {content relPath pfx : Str} {style : CommentStyle}
    (hct : commentTextFor style pfx relPath = none) :
    rewrite content relPath style pfx = none := by
  unfold rewrite
  rw [hct]

theorem commentTextFor_spec {style : CommentStyle} {pfx relPath ct : Str}
    (h : commentTextFor style pfx relPath = some ct)
    (h1 : cleanStr style.lineComment) (h2 : cleanStr style.blockCommentStart)
    (h3 : cleanStr style.blockCommentEnd) (h4 : cleanStr pfx) (h5 : cleanStr relPath) :
    ∃ body, ct = body ++ ['\n'] ∧ '\n' ∉ body ∧ '\r' ∉ body ∧
      hasHeaderMark body style pfx = true := by
  unfold commentTextFor at h
  split_ifs at h with hl hb
  · refine ⟨style.lineComment ++ [' '] ++ pfx ++ relPath, ?_, ?_, ?_, ?_⟩
    · simpa [List.append_assoc] using h.symm
    · intro hm
      rcases List.mem_append.mp hm with hm | hm
      · rcases List.mem_append.mp hm with hm | hm
        · rcases List.mem_append.mp hm with hm | hm
          · exact h1.1 hm
          · simp at hm
        · exact h4.1 hm
      · exact h5.1 hm
    · intro hm
      rcases List.mem_append.mp hm with hm | hm
      · rcases List.mem_append.mp hm with hm | hm
        · rcases List.mem_append.mp hm with hm | hm
          · exact h1.2 hm
          · simp at hm
        · exact h4.2 hm
      · exact h5.2 hm
    · refine Bool.or_eq_true _ _ |>.mpr (Or.inl (Bool.and_eq_true _ _ |>.mpr ⟨?_, ?_⟩))
      · have := containsSeq_of_append ([] : Str) style.lineComment
          ([' '] ++ pfx ++ relPath)
        simpa [containsSub, List.append_assoc] using this
      · have := containsSeq_of_append (style.lineComment ++ [' ']) pfx relPath
        simpa [containsSub, List.append_assoc] using this
  · refine ⟨style.blockCommentStart ++ [' '] ++ pfx ++ relPath ++ [' '] ++
      style.blockCommentEnd, ?_, ?_, ?_, ?_⟩
    · simpa [List.append_assoc] using h.symm
    · intro hm
      rcases List.mem_append.mp hm with hm | hm
      · rcases List.mem_append.mp hm with hm | hm
        · rcases List.mem_append.mp hm with hm | hm
          · rcases List.mem_append.mp hm with hm | hm
            · rcases List.mem_append.mp hm with hm | hm
              · exact h2.1 hm
              · simp at hm
            · exact h4.1 hm
          · exact h5.1 hm
        · simp at hm
      · exact h3.1 hm
    · intro hm
      rcases List.mem_append.mp hm with hm | hm
      · rcases List.mem_append.mp hm with hm | hm
        · rcases List.mem_append.mp hm with hm | hm
          · rcases List.mem_append.mp hm with hm | hm
            · rcases List.mem_append.mp hm with hm | hm
              · exact h2.2 hm
              · simp at hm
            · exact h4.2 hm
          · exact h5.2 hm
        · simp at hm
      · exact h3.2 hm
    · refine Bool.or_eq_true _ _ |>.mpr (Or.inr (Bool.and_eq_true _ _ |>.mpr ⟨?_, ?_⟩))
      · have := containsSeq_of_append ([] : Str) style.blockCommentStart
          ([' '] ++ pfx ++ relPath ++ [' '] ++ style.blockCommentEnd)
        simpa [containsSub, List.append_assoc] using this
      · have := containsSeq_of_append (style.blockCommentStart ++ [' ']) pfx
          (relPath ++ [' '] ++ style.blockCommentEnd)
        simpa [containsSub, List.append_assoc] using this

theorem rewrite_header_content {style : CommentStyle} {pfx relPath ct body : Str}
    (rest : Str)
    (hct : commentTextFor style pfx relPath = some ct)
    (hbody : ct = body ++ ['\n']) (hn : '\n' ∉ body) (hr : '\r' ∉ body)
    (hmark : hasHeaderMark body style pfx = true) :
    rewrite (ct ++ rest) relPath style pfx = some (ct ++ rest, true) := by
  subst hbody
  have hne : body ++ ['\n'] ++ rest ≠ [] := by simp
  have hfl : dropCR (takeLine (body ++ ['\n'] ++ rest)) = body := by
    have h2 : body ++ ['\n'] ++ rest = body ++ '\n' :: rest := by simp
    rw [h2, takeLine_append_left hn]
    exact dropCR_of_not_mem hr
  rw [rewrite_eq_of_some hct, if_neg hne, hfl, if_pos hmark, replaceFirst_append_left]

theorem rewrite_result_fixed {content relPath pfx nc : Str} {style : CommentStyle}
    {ch : Bool}
    (h1 : cleanStr style.lineComment) (h2 : cleanStr style.blockCommentStart)
    (h3 : cleanStr style.blockCommentEnd) (h4 : cleanStr pfx) (h5 : cleanStr relPath)
    (hcr : '\r' ∉ content)
    (hres : rewrite content relPath style pfx = some (nc, ch)) :
    rewrite nc relPath style pfx = some (nc, true) := by
  cases hct : commentTextFor style pfx relPath with
  | none => rw [rewrite_eq_none hct] at hres; cases hres
  | some ct =>
    obtain ⟨body, hbody, hn, hr, hmark⟩ := commentTextFor_spec hct h1 h2 h3 h4 h5
    rw [rewrite_eq_of_some hct] at hres
    by_cases hemp : content = []
    · rw [if_pos hemp] at hres
      have hnc : nc = ct := (congrArg Prod.fst (Option.some.inj hres)).symm
      subst hnc
      have := rewrite_header_content ([] : Str) hct hbody hn hr hmark
      simpa using this
    · rw [if_neg hemp] at hres
      by_cases hdet : hasHeaderMark (dropCR (takeLine content)) style pfx = true
      · rw [if_pos hdet] at hres
        by_cases hnl : '\n' ∈ content
        · have hsplit := takeLine_split hnl
          have hLr : '\r' ∉ takeLine content := not_mem_takeLine_of_not_mem hcr
          have hfl : dropCR (takeLine content) = takeLine content := dropCR_of_not_mem hLr
          have hrepl : replaceFirst content (takeLine content ++ ['\n']) ct
              = ct ++ afterFirstLine content := by
            obtain ⟨L, A, hL, hA⟩ :
                ∃ L A, takeLine content = L ∧ afterFirstLine content = A :=
              ⟨_, _, rfl, rfl⟩
            rw [hL, hA]
            have hsc : content = L ++ '\n' :: A := by rw [← hL, ← hA]; exact hsplit
            rw [hsc]
            have h2 : L ++ '\n' :: A = (L ++ ['\n']) ++ A := by simp
            rw [h2, replaceFirst_append_left]
          rw [hfl, hrepl] at hres
          have hnc : nc = ct ++ afterFirstLine content :=
            (congrArg Prod.fst (Option.some.inj hres)).symm
          subst hnc
          exact rewrite_header_content (afterFirstLine content) hct hbody hn hr hmark
        · have hTL : takeLine content = content := takeLine_eq_self hnl
          have hflr : dropCR (takeLine content) = content := by
            rw [hTL]; exact dropCR_of_not_mem hcr
          have hnoc : containsSeq content (content ++ ['\n']) = false := by
            cases hcc : containsSeq content (content ++ ['\n']) with
            | false => rfl
            | true =>
              have := length_le_of_containsSeq hcc
              simp at this
          have hrepl : replaceFirst content (dropCR (takeLine content) ++ ['\n']) ct
              = content := by
            rw [hflr]
            exact replaceFirst_of_not_contains ct hnoc
          rw [hrepl] at hres
          have hnc : nc = content := (congrArg Prod.fst (Option.some.inj hres)).symm
          subst hnc
          rw [rewrite_eq_of_some hct, if_neg hemp, if_pos hdet, hrepl]
      · rw [if_neg hdet] at hres
        have hnc : nc = ct ++ content := (congrArg Prod.fst (Option.some.inj hres)).symm
        subst hnc
        exact rewrite_header_content content hct hbody hn hr hmark

/-! ### Claim theorems -/

/-- Claim C1 (amended): a single-pair match of a pattern with a leading slash is
root-anchored exactly as coded: with the slash stripped, the pattern matches a
path iff the path equals the remainder or starts with the remainder followed by
a slash. Because the remainder of the pattern "/dist/" is "dist/" and keeps its
trailing slash, "/dist/" matches neither "src/dist/file.js" nor "dist/file.js". -/
theorem c1_rooted_match :
    (∀ (path rest : Str),
      matchGitIgnorePattern path ('/' :: rest) = true ↔
        (path = rest ∨ (rest ++ ['/']).isPrefixOf path = true)) ∧
    matchGitIgnorePattern "src/dist/file.js".data "/dist/".data = false ∧
    matchGitIgnorePattern "dist/file.js".data "/dist/".data = false := by
  refine ⟨?_, by decide, by decide⟩
  intro path rest
  unfold matchGitIgnorePattern
  have hpre : (['/'] : Str).isPrefixOf ('/' :: rest) = true := by
    simp [List.isPrefixOf]
  rw [if_pos hpre]
  simp

/-- Claim C1 counterexample: the claim asserts that the pattern "/dist/" matches
the path "dist/file.js"; on the code it does not. -/
theorem c1_rooted_match_cex :
    matchGitIgnorePattern "dist/file.js".data "/dist/".data = false := by decide

/-- Claim C6: a single-pair match of a trailing-slash pattern (one not also
starting with a slash, which the preceding rooted branch would capture first)
matches a directory name at any depth: with the trailing slash stripped to
dirName, the match succeeds iff the path equals dirName, starts with
dirName ++ "/", ends with "/" ++ dirName, or contains "/" ++ dirName ++ "/". -/
theorem c6_dir_match :
    ∀ (path pat : Str),
      (['/'] : Str).isPrefixOf pat = false →
      (['/'] : Str).isSuffixOf pat = true →
      (matchGitIgnorePattern path pat = true ↔
        (path = pat.dropLast ∨
         (pat.dropLast ++ ['/']).isPrefixOf path = true ∨
         (['/'] ++ pat.dropLast).isSuffixOf path = true ∨
         containsSub path (['/'] ++ pat.dropLast ++ ['/']) = true)) := by
  intro path pat h0 h1
  obtain ⟨t, rfl⟩ := List.isSuffixOf_iff_suffix.mp h1
  have hdl : (t ++ ['/']).dropLast = t := by simp
  unfold matchGitIgnorePattern
  rw [if_neg (by rw [h0]; exact Bool.false_ne_true), if_pos h1, hdl]
  simp [or_assoc]

/-- Claim C6 witness: the directory pattern "node_modules/" matches both
"node_modules/pkg/index.js" and "a/node_modules/b.js". -/
theorem c6_dir_match_witness :
    matchGitIgnorePattern "node_modules/pkg/index.js".data "node_modules/".data = true ∧
    matchGitIgnorePattern "a/node_modules/b.js".data "node_modules/".data = true := by
  constructor
  · exact (c6_dir_match "node_modules/pkg/index.js".data "node_modules/".data
      (by decide) (by decide)).mpr (by decide)
  · exact (c6_dir_match "a/node_modules/b.js".data "node_modules/".data
      (by decide) (by decide)).mpr (by decide)

/-- Claim C8 (amended): a pattern containing more than one star, when not taken
by the earlier rooted, directory or negation branches (no leading "/" or "!",
no trailing "/"), is not treated as a wildcard: the match falls through to the
plain-pattern (rule 4) treatment of the literal pattern text, and in particular
yields no match whenever the path contains no literal star character. -/
theorem c8_multi_star :
    ∀ (path pat : Str),
      (['/'] : Str).isPrefixOf pat = false →
      (['/'] : Str).isSuffixOf pat = false →
      (['!'] : Str).isPrefixOf pat = false →
      1 < pat.count '*' →
      matchGitIgnorePattern path pat = plainMatch path pat ∧
      ('*' ∉ path → matchGitIgnorePattern path pat = false) := by
  intro path pat h0 h1 h2 hc
  have hstar : '*' ∈ pat := by
    have hpos : 0 < pat.count '*' := Nat.lt_trans Nat.zero_lt_one hc
    exact List.count_pos_iff.mp hpos
  have hcs : containsSub pat ['*'] = true := mem_of_containsSeq_singleton hstar
  have hlen : 3 ≤ (splitOnChar '*' pat).length := by
    rw [splitOnChar_length]
    omega
  obtain ⟨a, b, c, r, hsp⟩ := exists_cons3_of_three_le hlen
  have heq : matchGitIgnorePattern path pat = plainMatch path pat := by
    unfold matchGitIgnorePattern
    rw [if_neg (by rw [h0]; exact Bool.false_ne_true),
      if_neg (by rw [h1]; exact Bool.false_ne_true),
      if_neg (by rw [h2]; exact Bool.false_ne_true),
      if_pos hcs, hsp]
  exact ⟨heq, fun hp => heq ▸ plainMatch_star_free hstar hp⟩

/-- Claim C8 counterexample: the claim asserts that a pattern with more than one
star matches no path at all; yet the multi-star pattern "a*b*c" does match the
path "a*b*c" through the plain-pattern segment comparison. -/
theorem c8_multi_star_cex :
    matchGitIgnorePattern "a*b*c".data "a*b*c".data = true := by decide

/-- Claim C8 witness: the multi-star pattern "a*b*" is handled by the
plain-pattern rule and does not match the star-free path "x/y.txt". -/
theorem c8_multi_star_witness :
    matchGitIgnorePattern "x/y.txt".data "a*b*".data = false :=
  (c8_multi_star "x/y.txt".data "a*b*".data (by decide) (by decide) (by decide)
    (by decide)).2 (by decide)

/-- Claim C2: shouldIgnore is the two-pass exclude-then-reinclude function: it
returns true iff some non-negated pattern matches the path and no pattern with a
leading negation marker (marker stripped, same single-pattern rules) matches it;
when no non-negated pattern matches it returns false. In particular, for the
pattern set ["build/", "!build/keep.txt"], the path "build/keep.txt" is kept
and "build/other.txt" is ignored. -/
theorem c2_should_ignore :
    (∀ (patterns : List Str) (path : Str),
      shouldIgnore patterns path = true ↔
        ((∃ pat ∈ patterns, (['!'] : Str).isPrefixOf pat = false ∧
            matchGitIgnorePattern path pat = true) ∧
         ¬ ∃ pat ∈ patterns, (['!'] : Str).isPrefixOf pat = true ∧
            matchGitIgnorePattern path (pat.drop 1) = true)) ∧
    shouldIgnore ["build/".data, "!build/keep.txt".data] "build/keep.txt".data
      = false ∧
    shouldIgnore ["build/".data, "!build/keep.txt".data] "build/other.txt".data
      = true := by
  refine ⟨?_, by decide, by decide⟩
  intro patterns path
  unfold shouldIgnore
  by_cases h : patterns.any (fun pat =>
      !((['!'] : Str).isPrefixOf pat) && matchGitIgnorePattern path pat) = true
  · rw [if_pos h, Bool.not_eq_true']
    constructor
    · intro hfalse
      refine ⟨?_, ?_⟩
      · obtain ⟨pat, hmem, hb⟩ := List.any_eq_true.mp h
        replace hb : (!((['!'] : Str).isPrefixOf pat) &&
            matchGitIgnorePattern path pat) = true := hb
        rw [Bool.and_eq_true, Bool.not_eq_true'] at hb
        exact ⟨pat, hmem, hb.1, hb.2⟩
      · rintro ⟨pat, hmem, hb1, hb2⟩
        have hx : patterns.any (fun pat =>
            (['!'] : Str).isPrefixOf pat &&
              matchGitIgnorePattern path (pat.drop 1)) = true :=
          List.any_eq_true.mpr ⟨pat, hmem, by
            show ((['!'] : Str).isPrefixOf pat &&
              matchGitIgnorePattern path (pat.drop 1)) = true
            rw [Bool.and_eq_true]
            exact ⟨hb1, hb2⟩⟩
        rw [hfalse] at hx
        exact Bool.false_ne_true hx
    · rintro ⟨-, hB⟩
      cases hany : patterns.any (fun pat =>
          (['!'] : Str).isPrefixOf pat &&
            matchGitIgnorePattern path (pat.drop 1)) with
      | false => rfl
      | true =>
        obtain ⟨pat, hmem, hb⟩ := List.any_eq_true.mp hany
        replace hb : ((['!'] : Str).isPrefixOf pat &&
            matchGitIgnorePattern path (pat.drop 1)) = true := hb
        rw [Bool.and_eq_true] at hb
        exact absurd ⟨pat, hmem, hb.1, hb.2⟩ hB
  · rw [if_neg h]
    constructor
    · intro hf
      exact absurd hf Bool.false_ne_true
    · rintro ⟨⟨pat, hmem, hb1, hb2⟩, -⟩
      refine absurd (List.any_eq_true.mpr ⟨pat, hmem, ?_⟩) h
      show (!((['!'] : Str).isPrefixOf pat) && matchGitIgnorePattern path pat) = true
      rw [Bool.and_eq_true, Bool.not_eq_true']
      exact ⟨hb1, hb2⟩

/-- Claim C3 (amended): the rewrite is idempotent on content — feeding the first
application's newContent back in reproduces it byte for byte — for every
carriage-return-free content, provided the style tokens, the prefix and the
relative path contain neither newline nor carriage return and the preferred
form is valid. -/
theorem c3_roundtrip :
    ∀ (content relPath pfx : Str) (style : CommentStyle),
      (commentTextFor style pfx relPath).isSome = true →
      cleanStr style.lineComment → cleanStr style.blockCommentStart →
      cleanStr style.blockCommentEnd → cleanStr pfx → cleanStr relPath →
      '\r' ∉ content →
      newContentD (rewrite (newContentD (rewrite content relPath style pfx))
          relPath style pfx)
        = newContentD (rewrite content relPath style pfx) := by
  intro content relPath pfx style hv h1 h2 h3 h4 h5 hcr
  cases hres : rewrite content relPath style pfx with
  | none =>
    cases hct : commentTextFor style pfx relPath with
    | none =>
      rw [hct] at hv
      cases hv
    | some ct =>
      rw [rewrite_eq_of_some hct] at hres
      split_ifs at hres
  | some r =>
    obtain ⟨nc, ch⟩ := r
    have hfix := rewrite_result_fixed h1 h2 h3 h4 h5 hcr hres
    simp [newContentD, hfix]

/-- Claim C3 counterexample: with a carriage-return line ending on the first
line and later duplicates of the scanned first line, each application rewrites
a further occurrence, so the second application changes the content again. -/
theorem c3_roundtrip_cex :
    newContentD (rewrite (newContentD (rewrite
        "// File: a\r\n// File: a\n// File: a\nX".data "b".data goStyle stdPfx))
        "b".data goStyle stdPfx)
      ≠ newContentD (rewrite "// File: a\r\n// File: a\n// File: a\nX".data
        "b".data goStyle stdPfx) := by decide

/-- Claim C3 witness: the round trip at a concrete Go file. -/
theorem c3_roundtrip_witness :
    newContentD (rewrite (newContentD (rewrite "package main\n".data
        "a/b.go".data goStyle stdPfx)) "a/b.go".data goStyle stdPfx)
      = newContentD (rewrite "package main\n".data "a/b.go".data goStyle stdPfx) :=
  c3_roundtrip "package main\n".data "a/b.go".data stdPfx goStyle (by decide)
    (by decide) (by decide) (by decide) (by decide) (by decide) (by decide)

/-- Claim C4 (amended): a descriptor with preferred form line and an empty
line-comment token makes the rewrite fail — producing no output content, so
nothing can be written — precisely when the block fallback is also unusable,
i.e. when at least one block delimiter is empty; with both block delimiters
present the code instead falls back to the block form. -/
theorem c4_unsupported_style :
    ∀ (content relPath pfx : Str) (style : CommentStyle),
      style.preferred = "line".data →
      style.lineComment = [] →
      (style.blockCommentStart = [] ∨ style.blockCommentEnd = []) →
      rewrite content relPath style pfx = none := by
  intro content relPath pfx style hpref hlc hblock
  have hct : commentTextFor style pfx relPath = none := by
    unfold commentTextFor
    have hc1 : ¬(style.preferred = "line".data ∧ style.lineComment ≠ []) := by
      rintro ⟨-, hne⟩
      exact hne hlc
    have hc2 : ¬(style.blockCommentStart ≠ [] ∧ style.blockCommentEnd ≠ []) := by
      rintro ⟨hbs, hbe⟩
      rcases hblock with hb | hb
      · exact hbs hb
      · exact hbe hb
    rw [if_neg hc1, if_neg hc2]
  exact rewrite_eq_none hct

/-- Claim C4 counterexample: the claim asserts failure for every preferred-line
descriptor with an empty line token, but with both block delimiters present the
code falls back to the block form and succeeds. -/
theorem c4_unsupported_style_cex :
    rewrite "x".data "p".data
      { lineComment := [], blockCommentStart := "<!--".data,
        blockCommentEnd := "-->".data, preferred := "line".data } stdPfx
      ≠ none := by decide

/-- Claim C4 witness: with preferred form line, no line token and no block
delimiters, the rewrite fails and produces no content. -/
theorem c4_unsupported_style_witness :
    rewrite "x".data "p".data
      { lineComment := [], blockCommentStart := [], blockCommentEnd := [],
        preferred := "line".data } stdPfx = none :=
  c4_unsupported_style "x".data "p".data stdPfx
    { lineComment := [], blockCommentStart := [], blockCommentEnd := [],
      preferred := "line".data } rfl rfl (Or.inl rfl)

/-- Claim C5: on non-empty content whose scanned first line is detected as an
existing header, the rewrite replaces exactly the first occurrence of the old
first line followed by a newline with the canonical header line, and reports
changed = true unconditionally, even when the replacement is byte-identical. -/
theorem c5_replace_header :
    ∀ (content relPath pfx ct : Str) (style : CommentStyle),
      content ≠ [] →
      commentTextFor style pfx relPath = some ct →
      hasHeaderMark (dropCR (takeLine content)) style pfx = true →
      rewrite content relPath style pfx =
        some (replaceFirst content (dropCR (takeLine content) ++ ['\n']) ct,
          true) := by
  intro content relPath pfx ct style hne hct hdet
  rw [rewrite_eq_of_some hct, if_neg hne, if_pos hdet]

/-- Claim C5 witness: replacing the header "// File: old/path.go" for the
relative path "new/path.go" in Go line style yields the expected content with
changed = true. -/
theorem c5_replace_header_witness :
    rewrite "// File: old/path.go\npackage main\n".data "new/path.go".data
        goStyle stdPfx
      = some ("// File: new/path.go\npackage main\n".data, true) := by
  have h := c5_replace_header "// File: old/path.go\npackage main\n".data
    "new/path.go".data stdPfx "// File: new/path.go\n".data goStyle
    (by decide) (by decide) (by decide)
  rw [h]
  decide

/-- Claim C7 (amended): provided the scanned first line does not end in a
carriage return, the rewrite confines its effect to the first line: everything
after the first newline of the content is preserved as a contiguous suffix of
the result. -/
theorem c7_rest_preserved :
    ∀ (content relPath pfx nc : Str) (style : CommentStyle) (ch : Bool),
      (takeLine content).getLast? ≠ some '\r' →
      rewrite content relPath style pfx = some (nc, ch) →
      ∃ front, nc = front ++ afterFirstLine content := by
  intro content relPath pfx nc style ch hcr hres
  cases hct : commentTextFor style pfx relPath with
  | none =>
    rw [rewrite_eq_none hct] at hres
    cases hres
  | some ct =>
    rw [rewrite_eq_of_some hct] at hres
    by_cases hnl : '\n' ∈ content
    · have hemp : content ≠ [] := fun he => by simp [he] at hnl
      rw [if_neg hemp] at hres
      have hfl : dropCR (takeLine content) = takeLine content := dropCR_of_getLast? hcr
      by_cases hdet : hasHeaderMark (dropCR (takeLine content)) style pfx = true
      · rw [if_pos hdet, hfl] at hres
        have hsplit := takeLine_split hnl
        have hrepl : replaceFirst content (takeLine content ++ ['\n']) ct
            = ct ++ afterFirstLine content := by
          obtain ⟨L, A, hL, hA⟩ :
              ∃ L A, takeLine content = L ∧ afterFirstLine content = A :=
            ⟨_, _, rfl, rfl⟩
          rw [hL, hA]
          have hsc : content = L ++ '\n' :: A := by rw [← hL, ← hA]; exact hsplit
          rw [hsc]
          have h2 : L ++ '\n' :: A = (L ++ ['\n']) ++ A := by simp
          rw [h2, replaceFirst_append_left]
        rw [hrepl] at hres
        exact ⟨ct, (congrArg Prod.fst (Option.some.inj hres)).symm⟩
      · rw [if_neg hdet] at hres
        have hnc : nc = ct ++ content := (congrArg Prod.fst (Option.some.inj hres)).symm
        refine ⟨ct ++ takeLine content ++ ['\n'], ?_⟩
        rw [hnc]
        conv_lhs => rw [takeLine_split hnl]
        simp
    · have hafter : afterFirstLine content = [] := afterFirstLine_of_not_mem hnl
      exact ⟨nc, by rw [hafter, List.append_nil]⟩

/-- Claim C7 counterexample: with a carriage-return-terminated first line whose
stripped text reappears later, the replacement rewrites the second line, so the
content after the first newline does not survive: it is neither a suffix of the
result nor even a contiguous run of the result's lines. -/
theorem c7_rest_preserved_cex :
    rewrite "// File: a\r\n// File: a\ntail".data "b".data goStyle stdPfx
        = some ("// File: a\r\n// File: b\ntail".data, true) ∧
    ((afterFirstLine "// File: a\r\n// File: a\ntail".data).isSuffixOf
        "// File: a\r\n// File: b\ntail".data) = false ∧
    containsSeq (splitOnChar '\n' "// File: a\r\n// File: b\ntail".data)
        (splitOnChar '\n' "// File: a\r\n// File: a\ntail".data).tail = false := by
  decide

/-- Claim C7 witness: for a newline-terminated Go file the rewrite keeps
everything after the first newline as a suffix of the output. -/
theorem c7_rest_preserved_witness :
    ∃ front, "// File: a/b.go\npackage main\n".data
        = front ++ afterFirstLine "package main\n".data :=
  c7_rest_preserved "package main\n".data "a/b.go".data stdPfx
    "// File: a/b.go\npackage main\n".data goStyle true (by decide) (by decide)

/-- Claim C9 (amended): when the first line is carriage-return/line-feed
terminated and detected as an existing header, and the stripped first line
followed by a bare newline occurs nowhere in the content, the rewrite reports
changed = true yet returns the content byte-identical: the replacement searches
for a byte sequence that does not occur, so the replace is a no-op. -/
theorem c9_crlf_noop :
    ∀ (content relPath pfx ct : Str) (style : CommentStyle),
      '\n' ∈ content →
      (takeLine content).getLast? = some '\r' →
      commentTextFor style pfx relPath = some ct →
      hasHeaderMark (dropCR (takeLine content)) style pfx = true →
      containsSeq content (dropCR (takeLine content) ++ ['\n']) = false →
      rewrite content relPath style pfx = some (content, true) := by
  intro content relPath pfx ct style hnl hcrlf hct hdet hnoc
  have hemp : content ≠ [] := fun he => by simp [he] at hnl
  rw [rewrite_eq_of_some hct, if_neg hemp, if_pos hdet,
    replaceFirst_of_not_contains ct hnoc]

/-- Claim C9 counterexample: the claim asserts newContent = content for every
detected CRLF-headed content, but when the stripped first line plus newline does
occur later in the content, that occurrence is replaced and the bytes change. -/
theorem c9_crlf_noop_cex :
    (takeLine "// File: a\r\n// File: a\nX".data).getLast? = some '\r' ∧
    rewrite "// File: a\r\n// File: a\nX".data "b".data goStyle stdPfx
      = some ("// File: a\r\n// File: b\nX".data, true) ∧
    "// File: a\r\n// File: b\nX".data ≠ "// File: a\r\n// File: a\nX".data := by
  decide

/-- Claim C9 witness: a CRLF-terminated detected header with no later duplicate
line is reported as changed while the content stays byte-identical. -/
theorem c9_crlf_noop_witness :
    rewrite "// File: a\r\npackage main\n".data "b".data goStyle stdPfx
      = some ("// File: a\r\npackage main\n".data, true) :=
  c9_crlf_noop "// File: a\r\npackage main\n".data "b".data stdPfx
    "// File: b\n".data goStyle (by decide) (by decide) (by decide) (by decide)
    (by decide)

/-- Claim C10: for a comment style whose line-comment token is empty — as the
built-in .html, .xml and .css styles are — header detection degenerates to a
test for the prefix text alone: containment of the empty token holds vacuously,
so any non-empty content whose first line contains the prefix is treated as
carrying an existing header and has that line replaced, even when no comment
delimiter is present on the line. -/
theorem c10_empty_token_detection :
    (htmlStyle.lineComment = [] ∧ xmlStyle.lineComment = [] ∧
      cssStyle.lineComment = []) ∧
    ∀ (content relPath pfx ct : Str) (style : CommentStyle),
      style.lineComment = [] →
      commentTextFor style pfx relPath = some ct →
      content ≠ [] →
      containsSub (dropCR (takeLine content)) pfx = true →
      rewrite content relPath style pfx =
        some (replaceFirst content (dropCR (takeLine content) ++ ['\n']) ct,
          true) := by
  refine ⟨⟨rfl, rfl, rfl⟩, ?_⟩
  intro content relPath pfx ct style hlc hct hne hpfx
  have hdet : hasHeaderMark (dropCR (takeLine content)) style pfx = true := by
    unfold hasHeaderMark
    rw [hlc, Bool.or_eq_true, Bool.and_eq_true]
    exact Or.inl ⟨containsSeq_nil _, hpfx⟩
  rw [rewrite_eq_of_some hct, if_neg hne, if_pos hdet]

/-- Claim C10 witness: with the built-in .html style, a first line containing
"File: " but no comment delimiter at all is treated as a header and replaced by
the canonical block-comment header. -/
theorem c10_empty_token_detection_witness :
    rewrite "my File: note\n<html>\n".data "p.html".data htmlStyle stdPfx
      = some ("<!-- File: p.html -->\n<html>\n".data, true) := by
  have h := c10_empty_token_detection.2 "my File: note\n<html>\n".data
    "p.html".data stdPfx "<!-- File: p.html -->\n".data htmlStyle rfl (by decide)
    (by decide) (by decide)
  rw [h]
  decide

end Pathfix
